import Mathlib

set_option maxHeartbeats 1000000

/-!
Verification of the natural-language specification of pygitfs against
`src/gitfs/indexfs.py`.

The embedding below translates the Python source.  Python byte strings are
modelled as `List Char`; Python's `NotImplemented` comparison result is
modelled as `none : Option Bool`; exceptions are modelled with `Except`.
The external collaborators (`gitfs.commands`, which wraps the git object
store and index, and the ordinary filesystem used for scratch files) are
not part of `src/`; they are modelled from the specification's interface
contracts (spec section 6) and marked `Modelled from the spec:` below.
-/

/-- Python strings (byte strings) are modelled as lists of characters. -/
abbrev Str := List Char

/-- Exceptions of the embedded code: `insecurePath` is `fs.InsecurePathError`,
`keyError` is Python's `KeyError` (missing dict key / `set.remove` miss),
`ioError` is an `IOError` from touching a missing file, `notFound` is the
object store's missing-object failure, `eexist` and `enoent` are the two
`OSError` codes raised by `mkdir`. -/
inductive PyErr where
  | insecurePath
  | keyError
  | ioError
  | notFound
  | eexist
  | enoent
  deriving DecidableEq

/-- Association-list lookup (first match), used for the scratch filesystem,
the object store and each node's `open_files` dict. -/
def alookup {α : Type} : List (Str × α) → Str → Option α
  | [], _ => none
  | (k', v) :: m, k => if k' = k then some v else alookup m k

/-- Association-list update: overwrite the first binding of the key, or
append a fresh binding. -/
def aset {α : Type} : List (Str × α) → Str → α → List (Str × α)
  | [], k, v => [(k, v)]
  | (k', v') :: m, k, v =>
    if k' = k then (k, v) :: m else (k', v') :: aset m k v

/-- Association-list deletion of every binding of the key. -/
def aremove {α : Type} (m : List (Str × α)) (k : Str) : List (Str × α) :=
  m.filter (fun kv => decide (kv.1 ≠ k))

/-- Strict lexicographic order on strings, the order Python's `<` uses on
`str` and the order in which the index store lists entries. -/
def lexLtB : Str → Str → Bool
  | [], [] => false
  | [], _ :: _ => true
  | _ :: _, [] => false
  | a :: as, b :: bs => if a < b then true else if a = b then lexLtB as bs else false

/-- The `os.path.join` of posixpath restricted to two arguments, as called by
`IndexFS.join`: an absolute right operand wins, otherwise a separator is
inserted unless the left part is empty or already ends in a separator. -/
def osJoin (a b : Str) : Str :=
  if b.head? = some '/' then b
  else if a = [] then b
  else if a.getLast? = some '/' then a ++ b
  else a ++ '/' :: b

/-- Drop trailing slashes, the `head.rstrip('/')` step of `posixpath.split`. -/
def dropTrailingSlashes (p : Str) : Str :=
  (p.reverse.dropWhile (fun c => decide (c = '/'))).reverse

/-- Index just after the last `'/'` of the string, `0` when there is none;
this is `p.rfind('/') + 1` of `posixpath.split`. -/
def lastSlashSucc : Str → Nat
  | [] => 0
  | c :: cs =>
    let r := lastSlashSucc cs
    if r = 0 then (if c = '/' then 1 else 0) else r + 1

/-- The `posixpath.split` used by `IndexFS.parent`: split at the last
separator and strip trailing separators from the head unless the head is
all separators. -/
def osPathSplit (p : Str) : Str × Str :=
  let i := lastSlashSucc p
  let head := p.take i
  let tail := p.drop i
  let head :=
    if head ≠ [] ∧ ¬ head.all (fun c => decide (c = '/')) then dropTrailingSlashes head
    else head
  (head, tail)

/-- One entry of the git index: a path, a file mode and a content hash.
The mode is optional because `IndexFS._close_file` submits its update
record without a mode (the source's `TODO mode` comment). -/
structure IndexRecord where
  path : Str
  mode : Option Str
  object : Str
  deriving DecidableEq

/-- Modelled from the spec: the world outside the `IndexFS` nodes — the
scratch filesystem (`files`, name to contents), the content-addressed
object store (`objects`, hash to contents), the index store's ordered
path-to-entry mapping (`indexEntries`), a log of every
`IndexStore.update_entries` batch (`updateLog`, newest first, recorded so
that theorems can count update calls), and a counter producing handle
identities. -/
structure World where
  files : List (Str × Str)
  objects : List (Str × Str)
  indexEntries : List IndexRecord
  updateLog : List (List IndexRecord)
  nextHandle : Nat
  deriving DecidableEq

/-- The `IndexFS` node of the source: repository identifier, index
identifier, relative path, and — exactly as in the source's `__init__`,
which runs for every navigation result — an `open_files` registry owned by
this very instance, mapping a path to the set of live handle identities. -/
structure IndexFS where
  repo : Str
  index : Str
  path : Str
  open_files : List (Str × List Nat)
  deriving DecidableEq

/-- A `NotifyOnCloseFile` handle: an identity (Python object identity,
drawn from `World.nextHandle`), the scratch file it is opened on, and the
requested mode.  Its close callback is `_close_file` of the node instance
that opened it. -/
structure PyFile where
  hid : Nat
  name : Str
  mode : Str
  deriving DecidableEq

/-- Modelled from the spec: the content address of a blob.  The spec only
requires `ObjectStore.write` to be deterministic and content-addressed, so
the digest is idealised as an injective encoding of the content. -/
def objectHash (c : Str) : Str := 'h' :: c

/-- Modelled from the spec: `ObjectStore.write(bytes) -> hash`, also
recording the blob in the store. -/
def write_object (w : World) (c : Str) : Str × World :=
  (objectHash c, { w with objects := aset w.objects (objectHash c) c })

/-- Modelled from the spec: `ObjectStore.read(hash) -> bytes`, failing
`NotFound` when the object is absent. -/
def cat_file (w : World) (obj : Str) : Except PyErr Str :=
  match alookup w.objects obj with
  | some c => .ok c
  | none => .error .notFound

/-- Modelled from the spec: `IndexStore.list_entries`.  With
`children = false` it returns every entry whose path equals the given path
or is a descendant of it (this is how `exists`, `_get_sha1` and `rename`
consume it); with `children = true` it returns the strict descendants —
all entries for the root.  Order is the store's order. -/
def ls_files (w : World) (path : Str) (children : Bool) : List IndexRecord :=
  if children then
    if path = [] then w.indexEntries
    else w.indexEntries.filter (fun e => (path ++ ['/']).isPrefixOf e.path)
  else
    w.indexEntries.filter
      (fun e => decide (e.path = path) || (path ++ ['/']).isPrefixOf e.path)

/-- Insert one update record into the index mapping: overwrite the entry at
the same path, or append a fresh entry. -/
def upsertRecord : List IndexRecord → IndexRecord → List IndexRecord
  | [], r => [r]
  | e :: es, r => if e.path = r.path then r :: es else e :: upsertRecord es r

/-- Modelled from the spec: `IndexStore.update_entries` — one atomic batch,
each record overwriting the entry at its path (a tombstone record is a
logical overwrite; its later reconciliation belongs to the index store).
The batch is also pushed on the observation log. -/
def update_index (w : World) (files : List IndexRecord) : World :=
  { w with
    indexEntries := files.foldl upsertRecord w.indexEntries
    updateLog := files :: w.updateLog }

/-- The fixed placeholder name of the source. -/
def placeholderName : Str := ".gitfs-placeholder".data

/-- The sentinel all-zero hash used by `IndexFS.remove`. -/
def zeroHash : Str := List.replicate 40 '0'

/-- The fixed regular-file mode written by `IndexFS.mkdir`. -/
def modeRegular : Str := "100644".data

/-- The tombstone mode written by `IndexFS.remove`. -/
def modeZero : Str := "0".data

/-- The source's `IndexFS.join`: reject absolute relative paths, otherwise
construct a brand-new instance (whose `__init__` gives it a fresh empty
`open_files` registry) at the joined path. -/
def joinE (self : IndexFS) (relpath : Str) : Except PyErr IndexFS :=
  if relpath.head? = some '/' then .error .insecurePath
  else .ok
    { repo := self.repo
      index := self.index
      path := osJoin self.path relpath
      open_files := [] }

/-- Loop body of the source's `IndexFS.child`: apply single segments one by
one, rejecting a segment containing a separator or equal to `".."`. -/
def childE : IndexFS → List Str → Except PyErr IndexFS
  | p, [] => .ok p
  | p, segment :: rest =>
    if segment.contains '/' then .error .insecurePath
    else if segment = "..".data then .error .insecurePath
    else
      match joinE p segment with
      | .ok p' => childE p' rest
      | .error e => .error e

/-- The source's `IndexFS.parent`: `os.path.split` the path and construct a
new instance (fresh empty registry) at the head. -/
def parentFS (self : IndexFS) : IndexFS :=
  { repo := self.repo
    index := self.index
    path := (osPathSplit self.path).1
    open_files := [] }

/-- The source's `IndexFS.__eq__` (`none` models `NotImplemented`, which the
method returns only for non-`IndexFS` operands, outside this embedding's
domain): differing repo or index gives a definite `False`, then path
equality decides. -/
def pyEq (a b : IndexFS) : Option Bool :=
  if a.repo ≠ b.repo ∨ a.index ≠ b.index then some false
  else if a.path ≠ b.path then some false
  else some true

/-- The source's `IndexFS.__ne__`, `not self == other`; on two `IndexFS`
values `__eq__` always returns a definite bool, which `not` negates. -/
def pyNe (a b : IndexFS) : Option Bool :=
  (pyEq a b).map (fun r => !r)

/-- The source's `IndexFS.__lt__`: `NotImplemented` (here `none`) when repo
or index differ, otherwise lexicographic comparison of the paths. -/
def pyLt (a b : IndexFS) : Option Bool :=
  if a.repo ≠ b.repo ∨ a.index ≠ b.index then none
  else some (lexLtB a.path b.path)

/-- The source's `IndexFS.__gt__`: symmetric to `__lt__`. -/
def pyGt (a b : IndexFS) : Option Bool :=
  if a.repo ≠ b.repo ∨ a.index ≠ b.index then none
  else some (lexLtB b.path a.path)

/-- The value of the Python 2 operator `a == b` on two `IndexFS` values:
`__eq__` never yields `NotImplemented` here, so the operator returns its
definite result (the `none` arm is unreachable on this domain; Python
would fall back to identity comparison, i.e. `false` for distinct
objects). -/
def pyEqOp (a b : IndexFS) : Bool :=
  match pyEq a b with
  | some r => r
  | none => false

/-- The value of the Python 2 operator `a < b`: try `a.__lt__(b)`, then the
reflected `b.__gt__(a)`, and when both return `NotImplemented` Python 2
falls back to its default ordering of objects — an arbitrary but definite
boolean, supplied here as the parameter `fb`. -/
def pyLtOp (fb : Bool) (a b : IndexFS) : Bool :=
  match pyLt a b with
  | some r => r
  | none =>
    match pyGt b a with
    | some r => r
    | none => fb

/-- The value of the Python 2 operator `a > b`, with the interpreter's
default-ordering fallback supplied as `fb`. -/
def pyGtOp (fb : Bool) (a b : IndexFS) : Bool :=
  match pyGt a b with
  | some r => r
  | none =>
    match pyLt b a with
    | some r => r
    | none => fb

/-- The source's `IndexFS.__le__`: `self < other or self == other`, whose
operands are the operator values above; the result is always a definite
boolean on two `IndexFS` values. -/
def pyLe (fb : Bool) (a b : IndexFS) : Option Bool :=
  some (pyLtOp fb a b || pyEqOp a b)

/-- The source's `IndexFS.__ge__`: `self > other or self == other`. -/
def pyGe (fb : Bool) (a b : IndexFS) : Option Bool :=
  some (pyGtOp fb a b || pyEqOp a b)

/-- Truthiness of a rich-comparison result as used by `if` in Python 2:
`NotImplemented` is a truthy object. -/
def pyTruthy : Option Bool → Bool
  | some b => b
  | none => true

/-- The source's `IndexFS.exists`: the root always exists, any other path
exists iff the index holds an entry at it or below it. -/
def existsFS (self : IndexFS) (w : World) : Bool :=
  if self.path = [] then true
  else !(ls_files w self.path false).isEmpty

/-- First entry of a listing whose path matches exactly; this is the loop
of `IndexFS._get_sha1` (`if data['path'] != self.path: continue`), reused
as the observation of an index mapping. -/
def findRec : List IndexRecord → Str → Option IndexRecord
  | [], _ => none
  | e :: es, p => if e.path = p then some e else findRec es p

/-- The source's `IndexFS._get_sha1`: scan the non-recursive listing for the
entry whose path matches exactly and return its object hash. -/
def get_sha1 (self : IndexFS) (w : World) : Option Str :=
  (findRec (ls_files w self.path false) self.path).map IndexRecord.object

/-- Modelled from the spec: the scratch-file digest of a path,
`hashlib.sha1(path).hexdigest()` in the source, idealised as an injective
encoding of the path. -/
def pathSha (p : Str) : Str := p

/-- Scratch file in its ready state: `index . sha1(path) . work`. -/
def workName (self : IndexFS) : Str :=
  self.index ++ '.' :: pathSha self.path ++ '.' :: "work".data

/-- Scratch file in its being-staged state: `index . sha1(path) . tmp`. -/
def tmpName (self : IndexFS) : Str :=
  self.index ++ '.' :: pathSha self.path ++ '.' :: "tmp".data

/-- The `os.rename` used to flip the staged scratch file into place:
fails when the source name is absent, otherwise moves the binding. -/
def renameFile (m : List (Str × Str)) (src dst : Str) : Except PyErr (List (Str × Str)) :=
  match alookup m src with
  | none => .error .ioError
  | some c => .ok (aset (aremove m src) dst c)

/-- Python's `set.add`: insert the handle identity unless present. -/
def pyAddHandle (users : List Nat) (h : Nat) : List Nat :=
  if users.contains h then users else users ++ [h]

/-- The source's `IndexFS.open`.  When this instance's registry has no live
handles on the path, the current index content (or empty) is staged into
the `tmp` scratch file and atomically renamed to `work`, and a fresh
per-path handle set is created; in both cases a new handle is added to the
set and returned together with the mutated instance.  File buffering is
not modelled: the handle's later writes go directly to the scratch file,
so the `flush` in `_close_file` is the identity. -/
def pyOpen (self : IndexFS) (mode : Str) (w : World) :
    Except PyErr (PyFile × IndexFS × World) :=
  let work := workName self
  match alookup self.open_files self.path with
  | none =>
    let contentE : Except PyErr Str :=
      match get_sha1 self w with
      | some obj => cat_file w obj
      | none => .ok []
    match contentE with
    | .error e => .error e
    | .ok content =>
      let tmp := tmpName self
      match renameFile (aset w.files tmp content) tmp work with
      | .error e => .error e
      | .ok files2 =>
        let f : PyFile := { hid := w.nextHandle, name := work, mode := mode }
        let w' := { w with files := files2, nextHandle := w.nextHandle + 1 }
        let self' := { self with open_files := aset self.open_files self.path [f.hid] }
        .ok (f, self', w')
  | some users =>
    let f : PyFile := { hid := w.nextHandle, name := work, mode := mode }
    let w' := { w with nextHandle := w.nextHandle + 1 }
    let self' := { self with open_files := aset self.open_files self.path (pyAddHandle users f.hid) }
    .ok (f, self', w')

/-- The source's `IndexFS._close_file`, the close callback bound to the
node instance that opened the handle.  Empty dict lookup and `set.remove`
of an absent member raise `KeyError`.  When the last handle leaves the
set, the scratch contents are read back, the scratch file unlinked, the
contents written to the object store, one index update submitted for the
path, and the per-path set destroyed.  (On the unreachable missing-file
error path the partially mutated registry is not returned.) -/
def close_file (self : IndexFS) (f : PyFile) (w : World) :
    Except PyErr (IndexFS × World) :=
  match alookup self.open_files self.path with
  | none => .error .keyError
  | some users =>
    if users.contains f.hid then
      let users' := users.erase f.hid
      if users' = [] then
        match alookup w.files f.name with
        | none => .error .ioError
        | some content =>
          let w1 := { w with files := aremove w.files f.name }
          let ow := write_object w1 content
          let w3 := update_index ow.2 [{ path := self.path, mode := none, object := ow.1 }]
          .ok ({ self with open_files := aremove self.open_files self.path }, w3)
      else
        .ok ({ self with open_files := aset self.open_files self.path users' }, w)
    else .error .keyError

/-- A whole-content write through a live handle: the scratch file the handle
is bound to receives the content (buffering not modelled). -/
def fileWrite (f : PyFile) (c : Str) (w : World) : World :=
  { w with files := aset w.files f.name c }

/-- A whole-content read through a live handle. -/
def fileRead (f : PyFile) (w : World) : Except PyErr Str :=
  match alookup w.files f.name with
  | some c => .ok c
  | none => .error .ioError

/-- The source's `NotifyOnCloseFile.close`: invoke the callback, then the
builtin `file.close` (no further model effect).  The second component
counts the callback invocations performed. -/
def notifyCloseT (owner : IndexFS) (f : PyFile) (w : World) :
    Except PyErr (IndexFS × World) × Nat :=
  (close_file owner f w, 1)

/-- The source's `NotifyOnCloseFile.__exit__`: invoke the callback, then
`file.__exit__` — which in CPython 2 (`Objects/fileobject.c`, `file_exit`)
calls `PyObject_CallMethod(f, "close", NULL)`, a dynamically dispatched
`self.close()` that lands on the overridden `NotifyOnCloseFile.close`
above.  The second component counts the callback invocations performed. -/
def notifyExitT (owner : IndexFS) (f : PyFile) (w : World) :
    Except PyErr (IndexFS × World) × Nat :=
  match close_file owner f w with
  | .error e => (.error e, 1)
  | .ok (o', w') =>
    let r := notifyCloseT o' f w'
    (r.1, 1 + r.2)

/-- The source's `IndexFS.mkdir`: `EEXIST` when the path exists and
`may_exist` is false; unless `create_parents`, `ENOENT` when a non-root
parent does not exist (the root is its own parent, so it skips the
check); otherwise write an empty object and submit one index entry for
`child(".gitfs-placeholder")` with the fixed regular-file mode. -/
def mkdirFS (self : IndexFS) (may_exist create_parents : Bool) (w : World) :
    Except PyErr World :=
  if !may_exist && existsFS self w then .error .eexist
  else if !create_parents && pyTruthy (pyNe self (parentFS self))
      && !existsFS (parentFS self) w then .error .enoent
  else
    let ow := write_object w []
    match childE self [placeholderName] with
    | .error e => .error e
    | .ok ph =>
      .ok (update_index ow.2 [{ path := ph.path, mode := some modeRegular, object := ow.1 }])

/-- The source's `IndexFS.remove` (also `unlink`): submit a single tombstone
entry — all-zero hash, mode `"0"` — for this exact path. -/
def removeFS (self : IndexFS) (w : World) : World :=
  update_index w [{ path := self.path, mode := some modeZero, object := zeroHash }]

/-- The source's `IndexFS.rmdir`: remove the placeholder child. -/
def rmdirFS (self : IndexFS) (w : World) : Except PyErr World :=
  match childE self [placeholderName] with
  | .ok c => .ok (removeFS c w)
  | .error e => .error e

/-- The source's `IndexFS.rename`, on the in-domain (same-kind) case: list
every entry at or under this path, rewrite each entry's path by replacing
this path's root with the target's, submit all rewritten entries as one
`update_index` batch, then mutate this node's path to the target's path
and return it. -/
def renameFS (self new_path : IndexFS) (w : World) : IndexFS × World :=
  let files := (ls_files w self.path false).map (fun data =>
    if data.path = self.path then { data with path := new_path.path }
    else { data with path := new_path.path ++ '/' :: data.path.drop (self.path.length + 1) })
  let w' := update_index w files
  ({ self with path := new_path.path }, w')

/-- First path segment of a remainder, `relative.split('/', 1)[0]` in the
source. -/
def firstSeg (s : Str) : Str := s.takeWhile (fun c => decide (c ≠ '/'))

/-- Whether a remainder contains a separator, `'/' in relative`. -/
def hasSep (s : Str) : Bool := s.contains '/'

/-- Loop body of the source's `IndexFS.__iter__` over the prefix-stripped
remainders of the sorted listing: skip the exact placeholder name, yield a
separator-free remainder by name, yield only the first segment of a
remainder with separators and suppress immediately repeated first segments
through `last_subdir`. -/
def iterBody : List Str → Option Str → List Str
  | [], _ => []
  | r :: rest, last =>
    if r = placeholderName then iterBody rest last
    else if hasSep r then
      let head := firstSeg r
      if some head = last then iterBody rest last
      else head :: iterBody rest (some head)
    else r :: iterBody rest last

/-- The source's `IndexFS.__iter__` at the level of yielded child names (the
generator yields `self.child(name)` for each name produced here): list the
children entries, strip this path's prefix, and run the loop body. -/
def iterNames (self : IndexFS) (w : World) : List Str :=
  let entries := ls_files w self.path true
  let rels := entries.map
    (fun e => e.path.drop (if self.path = [] then 0 else self.path.length + 1))
  iterBody rels none


instance {ε α : Type} [DecidableEq ε] [DecidableEq α] : DecidableEq (Except ε α)
  | .ok a, .ok b =>
    if h : a = b then .isTrue (by rw [h]) else .isFalse (by intro hh; cases hh; exact h rfl)
  | .error a, .error b =>
    if h : a = b then .isTrue (by rw [h]) else .isFalse (by intro hh; cases hh; exact h rfl)
  | .ok _, .error _ => .isFalse (by intro hh; cases hh)
  | .error _, .ok _ => .isFalse (by intro hh; cases hh)

theorem alookup_aset_self {α : Type} (m : List (Str × α)) (k : Str) (v : α) :
    alookup (aset m k v) k = some v := by
  induction m with
  | nil => simp [aset, alookup]
  | cons kv m ih =>
    obtain ⟨k', v'⟩ := kv
    by_cases h : k' = k
    · simp [aset, h, alookup]
    · simp [aset, h, alookup, ih]

theorem alookup_aset_ne {α : Type} (m : List (Str × α)) (k q : Str) (v : α)
    (hq : q ≠ k) : alookup (aset m k v) q = alookup m q := by
  have hkq : ¬ k = q := fun e => hq e.symm
  induction m with
  | nil => simp [aset, alookup, hkq]
  | cons kv m ih =>
    obtain ⟨k', v'⟩ := kv
    by_cases h : k' = k
    · subst h
      simp [aset, alookup, hkq]
    · by_cases h2 : k' = q
      · simp [aset, h, alookup, h2, hq]
      · simp [aset, h, alookup, h2, ih]

theorem alookup_aremove_self {α : Type} (m : List (Str × α)) (k : Str) :
    alookup (aremove m k) k = none := by
  induction m with
  | nil => simp [aremove, alookup]
  | cons kv m ih =>
    obtain ⟨k', v'⟩ := kv
    by_cases h : k' = k
    · simpa [aremove, alookup, h] using ih
    · simpa [aremove, alookup, h] using ih

theorem alookup_aremove_ne {α : Type} (m : List (Str × α)) (k q : Str)
    (hq : q ≠ k) : alookup (aremove m k) q = alookup m q := by
  have hkq : ¬ k = q := fun e => hq e.symm
  induction m with
  | nil => simp [aremove, alookup]
  | cons kv m ih =>
    obtain ⟨k', v'⟩ := kv
    by_cases h : k' = k
    · simpa [aremove, alookup, h, hkq] using ih
    · by_cases h2 : k' = q
      · simp [aremove, alookup, h, h2, hq]
      · simpa [aremove, alookup, h, h2] using ih

theorem findRec_upsert_self (es : List IndexRecord) (r : IndexRecord) :
    findRec (upsertRecord es r) r.path = some r := by
  induction es with
  | nil => simp [upsertRecord, findRec]
  | cons e es ih =>
    by_cases h : e.path = r.path
    · simp [upsertRecord, h, findRec]
    · simp [upsertRecord, h, findRec, ih]

theorem findRec_upsert_ne (es : List IndexRecord) (r : IndexRecord) (q : Str)
    (hq : q ≠ r.path) : findRec (upsertRecord es r) q = findRec es q := by
  have hrq : ¬ r.path = q := fun e => hq e.symm
  induction es with
  | nil => simp [upsertRecord, findRec, hrq]
  | cons e es ih =>
    by_cases h : e.path = r.path
    · have heq : ¬ e.path = q := by rw [h]; exact hrq
      simp [upsertRecord, h, findRec, hrq, heq]
    · by_cases h2 : e.path = q
      · simp [upsertRecord, h, findRec, h2, hq]
      · simp [upsertRecord, h, findRec, h2, ih]

/-- Sample world used by the concrete theorems: empty stores. -/
def emptyWorld : World :=
  { files := [], objects := [], indexEntries := [], updateLog := [], nextHandle := 0 }

/-- Sample root node of repository `r`, index `i`. -/
def rootNode : IndexFS :=
  { repo := "r".data, index := "i".data, path := [], open_files := [] }

/-- Sample node at path `a`, as produced by `rootNode.child("a")`. -/
def nodeA : IndexFS :=
  { repo := "r".data, index := "i".data, path := "a".data, open_files := [] }

/-- Sample node at path `b`. -/
def nodeB : IndexFS :=
  { repo := "r".data, index := "i".data, path := "b".data, open_files := [] }

/-- The handle produced by the first open of `nodeA` in `emptyWorld`. -/
def handle0 : PyFile := { hid := 0, name := workName nodeA, mode := "w".data }

/-- `nodeA` after that open: its own registry holds the live handle. -/
def nodeAOpened : IndexFS :=
  { repo := "r".data, index := "i".data, path := "a".data
    open_files := [("a".data, [0])] }

/-- The world after that open: the scratch file is staged empty. -/
def worldAfterOpen : World :=
  { files := [(workName nodeA, [])], objects := [], indexEntries := []
    updateLog := [], nextHandle := 1 }

/-- The world after the single handle is closed normally: scratch gone, the
empty blob written, one index update for the path submitted. -/
def worldAfterClose : World :=
  { files := [], objects := [(objectHash [], [])]
    indexEntries := [{ path := "a".data, mode := none, object := objectHash [] }]
    updateLog := [[{ path := "a".data, mode := none, object := objectHash [] }]]
    nextHandle := 1 }

/-- C1, code evaluation at the failing input.  A handle closed normally
fires the `_close_file` callback exactly once, but a handle released by a
`with`-block (`__exit__`) fires it twice: `NotifyOnCloseFile.__exit__`
invokes the callback and then delegates to `file.__exit__`, whose
dynamically dispatched `self.close()` lands back on the overridden
`close`, which invokes the callback a second time — that second
invocation finds the registry entry already gone and raises `KeyError`. -/
theorem c1_close_callback_double_fire :
    pyOpen nodeA "w".data emptyWorld = .ok (handle0, nodeAOpened, worldAfterOpen) ∧
    notifyCloseT nodeAOpened handle0 worldAfterOpen = (.ok (nodeA, worldAfterClose), 1) ∧
    notifyExitT nodeAOpened handle0 worldAfterOpen = (.error .keyError, 2) := by
  refine ⟨by decide, by decide, by decide⟩

/-- Node equal to `nodeA` except for the index identifier. -/
def nodeAOtherIndex : IndexFS :=
  { repo := "r".data, index := "j".data, path := "a".data, open_files := [] }

/-- C2, counterexample.  The claim demands that equality between nodes with
differing index identifiers signal "not comparable" (`NotImplemented`,
embedded as `none`); `IndexFS.__eq__` instead silently returns the
definite result `False`. -/
theorem c2_eq_counterexample :
    pyEq nodeA nodeAOtherIndex = some false := by decide

/-- C2, amended.  For nodes whose repository or index identifiers differ,
only `__lt__` and `__gt__` signal `NotImplemented`; `__eq__` silently
returns the definite `False` and `__ne__` the definite `True`, and
`__le__`/`__ge__` return whatever definite boolean the interpreter's
comparison fallback produces (parameter `fb`) — comparison does not
uniformly signal "not comparable". -/
theorem c2_comparisons_amended (a b : IndexFS)
    (h : a.repo ≠ b.repo ∨ a.index ≠ b.index) :
    pyEq a b = some false ∧ pyNe a b = some true ∧
    pyLt a b = none ∧ pyGt a b = none ∧
    (∀ fb, pyLe fb a b = some fb) ∧ (∀ fb, pyGe fb a b = some fb) := by
  have h' : b.repo ≠ a.repo ∨ b.index ≠ a.index := by
    rcases h with h | h
    · exact Or.inl (fun e => h e.symm)
    · exact Or.inr (fun e => h e.symm)
  refine ⟨?_, ?_, ?_, ?_, ?_, ?_⟩
  · rw [pyEq, if_pos h]
  · rw [pyNe, pyEq, if_pos h]; rfl
  · rw [pyLt, if_pos h]
  · rw [pyGt, if_pos h]
  · intro fb
    rw [pyLe, pyLtOp, pyLt, if_pos h, pyGt, if_pos h', pyEqOp, pyEq, if_pos h]
    simp
  · intro fb
    rw [pyGe, pyGtOp, pyGt, if_pos h, pyLt, if_pos h', pyEqOp, pyEq, if_pos h]
    simp

/-- Witness for `c2_comparisons_amended` at two concrete nodes of different
index identifiers. -/
theorem c2_comparisons_amended_witness :
    (nodeA.repo ≠ nodeAOtherIndex.repo ∨ nodeA.index ≠ nodeAOtherIndex.index) ∧
    (pyEq nodeA nodeAOtherIndex = some false ∧ pyNe nodeA nodeAOtherIndex = some true ∧
     pyLt nodeA nodeAOtherIndex = none ∧ pyGt nodeA nodeAOtherIndex = none ∧
     (∀ fb, pyLe fb nodeA nodeAOtherIndex = some fb) ∧
     (∀ fb, pyGe fb nodeA nodeAOtherIndex = some fb)) :=
  ⟨Or.inr (by decide), c2_comparisons_amended nodeA nodeAOtherIndex (Or.inr (by decide))⟩

/-- C3, counterexample.  Two `PathNode` values for the same logical path do
not observe the same live-handle set: navigating `rootNode.child("a")`
yields `nodeA` with a fresh empty registry; opening through it produces
the mutated instance `nodeAOpened` whose registry holds the live handle,
while a node value obtained by navigating to the same path again
(`nodeA` once more) observes no live handle at all. -/
theorem c3_registry_counterexample :
    childE rootNode ["a".data] = .ok nodeA ∧
    pyOpen nodeA "w".data emptyWorld = .ok (handle0, nodeAOpened, worldAfterOpen) ∧
    alookup nodeAOpened.open_files "a".data = some [0] ∧
    alookup nodeA.open_files "a".data = none ∧
    nodeAOpened.open_files ≠ nodeA.open_files := by
  refine ⟨by decide, by decide, by decide, by decide, by decide⟩

theorem joinE_registry (self : IndexFS) (rel : Str) (n' : IndexFS)
    (h : joinE self rel = .ok n') : n'.open_files = [] := by
  unfold joinE at h
  by_cases hc : rel.head? = some '/'
  · rw [if_pos hc] at h
    exact Except.noConfusion h
  · rw [if_neg hc] at h
    injection h with h1
    rw [← h1]

theorem childE_registry :
    ∀ (segs : List Str) (p n' : IndexFS), segs ≠ [] → childE p segs = .ok n' →
      n'.open_files = [] := by
  intro segs
  induction segs with
  | nil => intro p n' hne _; exact absurd rfl hne
  | cons s rest ih =>
    intro p n' _ h
    simp only [childE] at h
    by_cases h1 : s.contains '/' = true
    · rw [if_pos h1] at h
      exact Except.noConfusion h
    · rw [if_neg h1] at h
      by_cases h2 : s = "..".data
      · rw [if_pos h2] at h
        exact Except.noConfusion h
      · rw [if_neg h2] at h
        cases hj : joinE p s with
        | error e =>
          rw [hj] at h
          exact Except.noConfusion h
        | ok p' =>
          rw [hj] at h
          cases rest with
          | nil =>
            simp only [childE] at h
            injection h with h1
            rw [← h1]
            exact joinE_registry p s p' hj
          | cons r2 rest2 => exact ih p' n' (by simp) h

/-- C3, amended.  The open-file registry is owned by each `IndexFS`
instance, not by a shared session: every node produced by `join`, by
`child` with at least one segment, or by `parent` carries a fresh empty
`open_files` registry of its own, so distinct node values for the same
path have independent live-handle sets (the handle's close callback goes
back to the registry of the instance that opened it). -/
theorem c3_registry_amended :
    (∀ (self : IndexFS) (rel : Str) (n' : IndexFS),
      joinE self rel = .ok n' → n'.open_files = []) ∧
    (∀ (self : IndexFS) (segs : List Str) (n' : IndexFS),
      segs ≠ [] → childE self segs = .ok n' → n'.open_files = []) ∧
    (∀ self : IndexFS, (parentFS self).open_files = []) :=
  ⟨joinE_registry, fun _ segs n' hne h => childE_registry segs _ n' hne h,
   fun _ => rfl⟩

/-- Witness for `c3_registry_amended`: the node reached by `child("a")` from
the root carries an empty registry. -/
theorem c3_registry_amended_witness :
    (["a".data] ≠ ([] : List Str)) ∧ childE rootNode ["a".data] = .ok nodeA ∧
    nodeA.open_files = [] :=
  ⟨by decide, by decide,
   c3_registry_amended.2.1 rootNode ["a".data] nodeA (by decide) (by decide)⟩

/-- Entry at `a/x` used by the rename evaluation. -/
def recAX : IndexRecord :=
  { path := "a/x".data, mode := some modeRegular, object := objectHash "xx".data }

/-- The rewritten entry at `b/x` that `rename` submits. -/
def recBX : IndexRecord :=
  { path := "b/x".data, mode := some modeRegular, object := objectHash "xx".data }

/-- World holding exactly one entry, at `a/x`. -/
def world7 : World :=
  { files := [], objects := [], indexEntries := [recAX], updateLog := [], nextHandle := 0 }

/-- World after renaming node `a` to `b` there: the rewritten entry `b/x`
was appended by the single update batch, but the original `a/x` entry is
still in the index. -/
def world7After : World :=
  { files := [], objects := [], indexEntries := [recAX, recBX]
    updateLog := [[recBX]], nextHandle := 0 }

/-- C7, code evaluation at the failing input.  Renaming node `a` to `b`
with a single entry at `a/x` rewrites the entry to `b/x`, submits exactly
one atomic update batch, and mutates the node's path to `b` — but the
batch contains only the rewritten paths, no tombstones for the old ones,
so the entry at `a/x` remains in the index, contradicting the claim that
no entry remains under `A`. -/
theorem c7_rename_leaves_source_entries :
    renameFS nodeA nodeB world7 = (nodeB, world7After) ∧
    world7After.updateLog = [[recBX]] ∧
    findRec world7After.indexEntries "b/x".data = some recBX ∧
    findRec world7After.indexEntries "a/x".data = some recAX := by
  refine ⟨by decide, by decide, by decide, by decide⟩

/-- C10.  For every node and every world, `rmdir` succeeds: it submits
exactly one update batch holding the single tombstone record — all-zero
hash, mode `"0"` — for the node's `.gitfs-placeholder` child, and every
other index path is untouched. -/
theorem c10_rmdir_unconditional (self : IndexFS) (w : World) :
    ∃ w', rmdirFS self w = .ok w' ∧
      w'.updateLog = [{ path := osJoin self.path placeholderName,
                        mode := some modeZero, object := zeroHash }] :: w.updateLog ∧
      findRec w'.indexEntries (osJoin self.path placeholderName) =
        some { path := osJoin self.path placeholderName,
               mode := some modeZero, object := zeroHash } ∧
      (∀ q, q ≠ osJoin self.path placeholderName →
        findRec w'.indexEntries q = findRec w.indexEntries q) := by
  have hc : ¬ (placeholderName.contains '/' = true) := by decide
  have hd : ¬ (placeholderName = "..".data) := by decide
  have hh : ¬ (placeholderName.head? = some '/') := by decide
  have hred : rmdirFS self w =
      .ok (update_index w [{ path := osJoin self.path placeholderName,
                             mode := some modeZero, object := zeroHash }]) := by
    simp only [rmdirFS, childE, joinE, removeFS, if_neg hc, if_neg hd, if_neg hh]
  refine ⟨_, hred, ?_, ?_, ?_⟩
  · simp [update_index]
  · simpa [update_index] using
      findRec_upsert_self w.indexEntries
        { path := osJoin self.path placeholderName, mode := some modeZero, object := zeroHash }
  · intro q hq
    simpa [update_index] using
      findRec_upsert_ne w.indexEntries
        { path := osJoin self.path placeholderName, mode := some modeZero, object := zeroHash }
        q hq

theorem pyTruthy_ne_parent (self : IndexFS) :
    pyTruthy (pyNe self (parentFS self)) = !decide (self.path = (parentFS self).path) := by
  have hrepo : ¬ (self.repo ≠ (parentFS self).repo ∨ self.index ≠ (parentFS self).index) := by
    simp [parentFS]
  by_cases hp : self.path = (parentFS self).path
  · simp [pyNe, pyEq, pyTruthy, hrepo, hp]
  · simp [pyNe, pyEq, pyTruthy, hrepo, hp]

/-- The placeholder entry `mkdir` submits for a node: the node's
`.gitfs-placeholder` child path, the fixed regular-file mode, and the
hash of the empty blob. -/
def phRecord (self : IndexFS) : IndexRecord :=
  { path := osJoin self.path placeholderName, mode := some modeRegular
    object := objectHash [] }

/-- C8.  `mkdir` fails `EEXIST` when the path exists and `may_exist` is
false; otherwise, when `create_parents` is false, it fails `ENOENT` when
a non-root parent does not exist (a node that is its own parent — the
root — skips the check); otherwise it succeeds, writing the empty object
and submitting exactly one index entry, at `child(".gitfs-placeholder")`
with the fixed regular-file mode, and touching no other index path.  The
error paths return before any store call, so a failed `mkdir` leaves the
index unchanged. -/
theorem c8_mkdir_spec (self : IndexFS) (may_exist create_parents : Bool) (w : World) :
    (may_exist = false → existsFS self w = true →
      mkdirFS self may_exist create_parents w = .error .eexist) ∧
    ((may_exist = true ∨ existsFS self w = false) →
      create_parents = false → (parentFS self).path ≠ self.path →
      existsFS (parentFS self) w = false →
      mkdirFS self may_exist create_parents w = .error .enoent) ∧
    ((may_exist = true ∨ existsFS self w = false) →
      (create_parents = true ∨ (parentFS self).path = self.path ∨
        existsFS (parentFS self) w = true) →
      ∃ w', mkdirFS self may_exist create_parents w = .ok w' ∧
        w'.updateLog = [phRecord self] :: w.updateLog ∧
        alookup w'.objects (objectHash []) = some [] ∧
        findRec w'.indexEntries (phRecord self).path = some (phRecord self) ∧
        (∀ q, q ≠ (phRecord self).path →
          findRec w'.indexEntries q = findRec w.indexEntries q)) := by
  have hc : ¬ (placeholderName.contains '/' = true) := by decide
  have hd : ¬ (placeholderName = "..".data) := by decide
  have hh : ¬ (placeholderName.head? = some '/') := by decide
  refine ⟨?_, ?_, ?_⟩
  · intro h1 h2
    simp [mkdirFS, h1, h2]
  · intro hmay hcp hpne hpe
    have hc1 : (!may_exist && existsFS self w) = false := by
      rcases hmay with h | h <;> simp [h]
    have hdec : decide (self.path = (parentFS self).path) = false := by
      simp
      exact fun e => hpne e.symm
    have hc2 : (!create_parents && pyTruthy (pyNe self (parentFS self))
        && !existsFS (parentFS self) w) = true := by
      rw [pyTruthy_ne_parent, hdec, hcp, hpe]
      rfl
    simp [mkdirFS, hc1, hc2]
  · intro hmay hok
    have hc1 : (!may_exist && existsFS self w) = false := by
      rcases hmay with h | h <;> simp [h]
    have hc2 : (!create_parents && pyTruthy (pyNe self (parentFS self))
        && !existsFS (parentFS self) w) = false := by
      rcases hok with h | h | h
      · simp [h]
      · rw [pyTruthy_ne_parent]
        have : decide (self.path = (parentFS self).path) = true := by
          simp [h.symm]
        rw [this]
        simp
      · simp [h]
    have hred : mkdirFS self may_exist create_parents w =
        .ok (update_index (write_object w []).2 [phRecord self]) := by
      simp only [mkdirFS, hc1, hc2, Bool.false_eq_true, if_false, childE, joinE,
        if_neg hc, if_neg hd, if_neg hh, phRecord]
      rfl
    refine ⟨_, hred, ?_, ?_, ?_, ?_⟩
    · simp [update_index, write_object]
    · simp [update_index, write_object, alookup_aset_self]
    · simpa [update_index, write_object] using
        findRec_upsert_self w.indexEntries (phRecord self)
    · intro q hq
      simpa [update_index, write_object] using
        findRec_upsert_ne w.indexEntries (phRecord self) q hq

/-- Witness for `c8_mkdir_spec`: in a world with one entry at `a/x`, mkdir
of `a` fails `EEXIST`, mkdir of `b/c` (parent `b` missing) fails
`ENOENT`, and mkdir of `b` under the existing root succeeds with exactly
the placeholder update. -/
theorem c8_mkdir_spec_witness :
    mkdirFS nodeA false false world7 = .error .eexist ∧
    mkdirFS { nodeA with path := "b/c".data } false false world7 = .error .enoent ∧
    (∃ w', mkdirFS nodeB false false world7 = .ok w' ∧
      w'.updateLog = [phRecord nodeB] :: world7.updateLog ∧
      alookup w'.objects (objectHash []) = some [] ∧
      findRec w'.indexEntries (phRecord nodeB).path = some (phRecord nodeB) ∧
      (∀ q, q ≠ (phRecord nodeB).path →
        findRec w'.indexEntries q = findRec world7.indexEntries q)) :=
  ⟨(c8_mkdir_spec nodeA false false world7).1 rfl (by decide),
   (c8_mkdir_spec { nodeA with path := "b/c".data } false false world7).2.1
     (Or.inr (by decide)) rfl (by decide) (by decide),
   (c8_mkdir_spec nodeB false false world7).2.2 (Or.inr (by decide))
     (Or.inr (Or.inr (by decide)))⟩

/-- C9.  `join` of any absolute string (one starting with the separator)
fails `InsecurePathError`, and `child` of any segment containing a
separator or equal to `".."` fails `InsecurePathError`.  Both functions
are pure — they take no world, so no store or filesystem access can
occur — and they construct new nodes rather than mutating `self`. -/
theorem c9_path_safety :
    (∀ (self : IndexFS) (s : Str), s.head? = some '/' →
      joinE self s = .error .insecurePath) ∧
    (∀ (self : IndexFS) (seg : Str), seg.contains '/' = true ∨ seg = "..".data →
      childE self [seg] = .error .insecurePath) := by
  refine ⟨?_, ?_⟩
  · intro self s h
    simp [joinE, h]
  · intro self seg h
    rcases h with h | h
    · simp only [childE]
      rw [if_pos h]
    · have hc : ¬ (seg.contains '/' = true) := by rw [h]; decide
      simp only [childE]
      rw [if_neg hc, if_pos h]

/-- Witness for `c9_path_safety` at concrete inputs: an absolute join, a
separator-bearing child segment and the `".."` segment all fail. -/
theorem c9_path_safety_witness :
    joinE nodeA "/etc".data = .error .insecurePath ∧
    childE nodeA ["a/b".data] = .error .insecurePath ∧
    childE nodeA ["..".data] = .error .insecurePath :=
  ⟨c9_path_safety.1 nodeA "/etc".data (by decide),
   c9_path_safety.2 nodeA "a/b".data (Or.inl (by decide)),
   c9_path_safety.2 nodeA "..".data (Or.inr rfl)⟩

/-- Witness for `c10_rmdir_unconditional` at a concrete node and world. -/
theorem c10_rmdir_unconditional_witness :
    ∃ w', rmdirFS nodeA emptyWorld = .ok w' ∧
      w'.updateLog = [{ path := osJoin nodeA.path placeholderName,
                        mode := some modeZero, object := zeroHash }] :: emptyWorld.updateLog ∧
      findRec w'.indexEntries (osJoin nodeA.path placeholderName) =
        some { path := osJoin nodeA.path placeholderName,
               mode := some modeZero, object := zeroHash } ∧
      (∀ q, q ≠ osJoin nodeA.path placeholderName →
        findRec w'.indexEntries q = findRec emptyWorld.indexEntries q) :=
  c10_rmdir_unconditional nodeA emptyWorld


theorem renameFile_aset (m : List (Str × Str)) (src dst : Str) (c : Str) :
    renameFile (aset m src c) src dst = .ok (aset (aremove (aset m src c) src) dst c) := by
  unfold renameFile
  rw [alookup_aset_self]

theorem pyOpen_fresh_none (self : IndexFS) (mode : Str) (w : World)
    (h0 : alookup self.open_files self.path = none)
    (hg : get_sha1 self w = none) :
    pyOpen self mode w = .ok
      ({ hid := w.nextHandle, name := workName self, mode := mode },
       { self with open_files := aset self.open_files self.path [w.nextHandle] },
       { w with
          files := aset (aremove (aset w.files (tmpName self) []) (tmpName self)) (workName self) []
          nextHandle := w.nextHandle + 1 }) := by
  simp only [pyOpen, h0, hg, renameFile_aset]

theorem pyOpen_fresh_some (self : IndexFS) (mode : Str) (w : World) (obj content : Str)
    (h0 : alookup self.open_files self.path = none)
    (hg : get_sha1 self w = some obj)
    (hcat : cat_file w obj = .ok content) :
    pyOpen self mode w = .ok
      ({ hid := w.nextHandle, name := workName self, mode := mode },
       { self with open_files := aset self.open_files self.path [w.nextHandle] },
       { w with
          files := aset (aremove (aset w.files (tmpName self) content) (tmpName self))
            (workName self) content
          nextHandle := w.nextHandle + 1 }) := by
  simp only [pyOpen, h0, hg, hcat, renameFile_aset]

theorem pyOpen_fresh (self : IndexFS) (mode : Str) (w : World)
    (f : PyFile) (n' : IndexFS) (w' : World)
    (h0 : alookup self.open_files self.path = none)
    (h : pyOpen self mode w = .ok (f, n', w')) :
    f = { hid := w.nextHandle, name := workName self, mode := mode } ∧
    n' = { self with open_files := aset self.open_files self.path [w.nextHandle] } ∧
    (∃ content,
      w' = { w with
        files := aset (aremove (aset w.files (tmpName self) content) (tmpName self))
          (workName self) content
        nextHandle := w.nextHandle + 1 }) := by
  cases hg : get_sha1 self w with
  | none =>
    rw [pyOpen_fresh_none self mode w h0 hg] at h
    simp only [Except.ok.injEq, Prod.mk.injEq] at h
    obtain ⟨hf, hn, hw⟩ := h
    exact ⟨hf.symm, hn.symm, ⟨[], hw.symm⟩⟩
  | some obj =>
    cases hcat : cat_file w obj with
    | error e =>
      have hred : pyOpen self mode w = .error e := by
        simp only [pyOpen, h0, hg, hcat]
      rw [hred] at h
      exact Except.noConfusion h
    | ok content =>
      rw [pyOpen_fresh_some self mode w obj content h0 hg hcat] at h
      simp only [Except.ok.injEq, Prod.mk.injEq] at h
      obtain ⟨hf, hn, hw⟩ := h
      exact ⟨hf.symm, hn.symm, ⟨content, hw.symm⟩⟩

theorem pyOpen_existing (self : IndexFS) (mode : Str) (w : World)
    (users : List Nat) (f : PyFile) (n' : IndexFS) (w' : World)
    (h0 : alookup self.open_files self.path = some users)
    (h : pyOpen self mode w = .ok (f, n', w')) :
    f = { hid := w.nextHandle, name := workName self, mode := mode } ∧
    n' = { self with
            open_files := aset self.open_files self.path (pyAddHandle users w.nextHandle) } ∧
    w' = { w with nextHandle := w.nextHandle + 1 } := by
  simp only [pyOpen, h0, Except.ok.injEq, Prod.mk.injEq] at h
  obtain ⟨hf, hn, hw⟩ := h
  exact ⟨hf.symm, hn.symm, hw.symm⟩

theorem close_file_nonempty (self : IndexFS) (f : PyFile) (w : World) (users : List Nat)
    (h0 : alookup self.open_files self.path = some users)
    (hmem : users.contains f.hid = true)
    (hne : ¬ (users.erase f.hid = [])) :
    close_file self f w =
      .ok ({ self with open_files := aset self.open_files self.path (users.erase f.hid) }, w) := by
  simp only [close_file, h0, hmem, if_true]
  rw [if_neg hne]

theorem close_file_last (self : IndexFS) (f : PyFile) (w : World) (users : List Nat)
    (content : Str)
    (h0 : alookup self.open_files self.path = some users)
    (hmem : users.contains f.hid = true)
    (hemp : users.erase f.hid = [])
    (hfile : alookup w.files f.name = some content) :
    close_file self f w =
      .ok ({ self with open_files := aremove self.open_files self.path },
           update_index
             { w with
                files := aremove w.files f.name
                objects := aset w.objects (objectHash content) content }
             [{ path := self.path, mode := none, object := objectHash content }]) := by
  simp only [close_file, h0, hmem, if_true, hemp, hfile, write_object]

/-- Second handle on path `a`, opened through a second node instance. -/
def handle1 : PyFile := { hid := 1, name := workName nodeA, mode := "w".data }

/-- The second instance after its own open: its registry knows only the
second handle. -/
def nodeAOpened2 : IndexFS :=
  { repo := "r".data, index := "i".data, path := "a".data
    open_files := [("a".data, [1])] }

/-- World after both instances opened path `a`. -/
def worldTwoOpens : World :=
  { files := [(workName nodeA, [])], objects := [], indexEntries := []
    updateLog := [], nextHandle := 2 }

/-- World after the first of the two handles closed: its instance's set
became empty, so it already persisted — one update — and unlinked the
shared scratch file. -/
def worldFirstCloseOfTwo : World :=
  { files := [], objects := [(objectHash [], [])]
    indexEntries := [{ path := "a".data, mode := none, object := objectHash [] }]
    updateLog := [[{ path := "a".data, mode := none, object := objectHash [] }]]
    nextHandle := 2 }

/-- C4, counterexample.  Two handles are open on the same path `a` before
either closes — but through two node instances.  The first close already
empties its own instance's registry, so it triggers an IndexStore update
while the other handle is still live, and the second close then fails
with `IOError` because the shared scratch file was already unlinked:
not "exactly one update, triggered only by the second close". -/
theorem c4_two_instances_counterexample :
    pyOpen nodeA "w".data emptyWorld = .ok (handle0, nodeAOpened, worldAfterOpen) ∧
    pyOpen nodeA "w".data worldAfterOpen = .ok (handle1, nodeAOpened2, worldTwoOpens) ∧
    close_file nodeAOpened handle0 worldTwoOpens = .ok (nodeA, worldFirstCloseOfTwo) ∧
    worldFirstCloseOfTwo.updateLog =
      [[{ path := "a".data, mode := none, object := objectHash [] }]] ∧
    close_file nodeAOpened2 handle1 worldFirstCloseOfTwo = .error .ioError := by
  refine ⟨by decide, by decide, by decide, by decide, by decide⟩

/-- C4, amended.  When the two handles are opened on the same path through
the same node instance (threading the instance mutated by each call), the
first close — which leaves the live-handle set non-empty — returns the
world entirely unchanged (no object-store write, no index update), and
the second (last) close performs exactly one IndexStore update for the
path, mapping it to the hash of the scratch content (here the second
write, `b2`); across the whole sequence the update log grows by exactly
that one batch, and the per-path registry entry is destroyed. -/
theorem c4_last_close_writes (n : IndexFS) (m1 m2 b1 b2 : Str) (w w1 w2 : World)
    (f1 f2 : PyFile) (n1 n2 : IndexFS)
    (h0 : alookup n.open_files n.path = none)
    (h1 : pyOpen n m1 w = .ok (f1, n1, w1))
    (h2 : pyOpen n1 m2 w1 = .ok (f2, n2, w2)) :
    ∃ n3 n4 w4,
      close_file n2 f1 (fileWrite f2 b2 (fileWrite f1 b1 w2)) =
        .ok (n3, fileWrite f2 b2 (fileWrite f1 b1 w2)) ∧
      close_file n3 f2 (fileWrite f2 b2 (fileWrite f1 b1 w2)) = .ok (n4, w4) ∧
      w4.updateLog =
        [{ path := n.path, mode := none, object := objectHash b2 }] :: w.updateLog ∧
      w4.indexEntries =
        upsertRecord w.indexEntries { path := n.path, mode := none, object := objectHash b2 } ∧
      alookup n4.open_files n.path = none := by
  obtain ⟨hf1, hn1, content, hw1⟩ := pyOpen_fresh n m1 w f1 n1 w1 h0 h1
  subst hf1 hn1 hw1
  obtain ⟨hf2, hn2, hw2⟩ :=
    pyOpen_existing _ m2 _ [w.nextHandle] f2 n2 w2 (alookup_aset_self _ _ _) h2
  subst hf2 hn2 hw2
  simp only []
  have hadd : pyAddHandle [w.nextHandle] (w.nextHandle + 1) = [w.nextHandle, w.nextHandle + 1] := by
    simp [pyAddHandle]
  rw [hadd]
  apply Exists.intro
  apply Exists.intro
  apply Exists.intro
  refine ⟨?_, ?_, ?_, ?_, ?_⟩
  · exact close_file_nonempty _ _ _ [w.nextHandle, w.nextHandle + 1]
      (alookup_aset_self _ _ _) (by simp) (by simp)
  · exact close_file_last _ _ _ ([w.nextHandle, w.nextHandle + 1].erase w.nextHandle) b2
      (alookup_aset_self _ _ _) (by simp) (by simp)
      (by simp [fileWrite, alookup_aset_self])
  · simp [update_index, fileWrite]
  · simp [update_index, fileWrite]
  · simp [alookup_aremove_self]

/-- The single instance holding both live handles on path `a`. -/
def nodeATwoHandles : IndexFS :=
  { repo := "r".data, index := "i".data, path := "a".data
    open_files := [("a".data, [0, 1])] }

/-- Witness for `c4_last_close_writes`: both handles opened through the one
instance, writes `x` then `y`, closes in sequence. -/
theorem c4_last_close_writes_witness :
    ∃ n3 n4 w4,
      close_file nodeATwoHandles handle0
          (fileWrite handle1 "y".data (fileWrite handle0 "x".data worldTwoOpens)) =
        .ok (n3, fileWrite handle1 "y".data (fileWrite handle0 "x".data worldTwoOpens)) ∧
      close_file n3 handle1
          (fileWrite handle1 "y".data (fileWrite handle0 "x".data worldTwoOpens)) =
        .ok (n4, w4) ∧
      w4.updateLog =
        [{ path := nodeA.path, mode := none, object := objectHash "y".data }]
          :: emptyWorld.updateLog ∧
      w4.indexEntries = upsertRecord emptyWorld.indexEntries
        { path := nodeA.path, mode := none, object := objectHash "y".data } ∧
      alookup n4.open_files nodeA.path = none :=
  c4_last_close_writes nodeA "w".data "w".data "x".data "y".data emptyWorld
    worldAfterOpen worldTwoOpens handle0 handle1 nodeAOpened nodeATwoHandles
    (by decide) (by decide) (by decide)

theorem findRec_mem (es : List IndexRecord) (p : Str) (e : IndexRecord)
    (h : findRec es p = some e) : e ∈ es := by
  induction es with
  | nil => exact Option.noConfusion h
  | cons e' es ih =>
    by_cases hp : e'.path = p
    · simp only [findRec, if_pos hp, Option.some.injEq] at h
      rw [← h]
      exact List.mem_cons_self e' es
    · simp only [findRec, if_neg hp] at h
      exact List.mem_cons_of_mem e' (ih h)

theorem findRec_eq_none (es : List IndexRecord) (p : Str)
    (h : ∀ e ∈ es, e.path ≠ p) : findRec es p = none := by
  induction es with
  | nil => rfl
  | cons e es ih =>
    simp only [findRec, if_neg (h e (List.mem_cons_self e es))]
    exact ih (fun e' he' => h e' (List.mem_cons_of_mem e he'))

theorem findRec_filter (es : List IndexRecord) (p : Str) (q : IndexRecord → Bool)
    (hq : ∀ e, e.path = p → q e = true) :
    findRec (es.filter q) p = findRec es p := by
  induction es with
  | nil => rfl
  | cons e es ih =>
    by_cases hpe : e.path = p
    · rw [List.filter_cons_of_pos (hq e hpe)]
      simp only [findRec, if_pos hpe]
    · cases hqe : q e with
      | false =>
        rw [List.filter_cons_of_neg (by simp [hqe])]
        rw [ih]
        simp only [findRec, if_neg hpe]
      | true =>
        rw [List.filter_cons_of_pos hqe]
        simp only [findRec, if_neg hpe]
        exact ih

theorem get_sha1_eq_findRec (self : IndexFS) (w : World) :
    get_sha1 self w = (findRec w.indexEntries self.path).map IndexRecord.object := by
  unfold get_sha1 ls_files
  simp only [Bool.false_eq_true, if_false]
  rw [findRec_filter]
  intro e he
  simp [he]

theorem close_reopen_read (n1 : IndexFS) (f : PyFile) (c m2 : Str) (w2 : World)
    (hreg : alookup n1.open_files n1.path = some [f.hid])
    (hfile : alookup w2.files f.name = some c) :
    ∃ n3 w3 f2 n4 w4,
      close_file n1 f w2 = .ok (n3, w3) ∧
      pyOpen n3 m2 w3 = .ok (f2, n4, w4) ∧
      fileRead f2 w4 = .ok c := by
  have hclose := close_file_last n1 f w2 [f.hid] c hreg (by simp) (by simp) hfile
  apply Exists.intro
  apply Exists.intro
  apply Exists.intro
  apply Exists.intro
  apply Exists.intro
  refine ⟨hclose, ?_, ?_⟩
  · apply pyOpen_fresh_some _ m2 _ (objectHash c) c
    · exact alookup_aremove_self _ _
    · rw [get_sha1_eq_findRec]
      simp only [update_index, List.foldl_cons, List.foldl_nil]
      rw [findRec_upsert_self]
      rfl
    · simp [cat_file, update_index, alookup_aset_self]
  · simp [fileRead, alookup_aset_self]

/-- The write/close/reopen/read sequence of the round-trip property: open
the path, write `c` through the handle (whole-content), close it, reopen
through the instance returned by the close callback's owner, and read. -/
def roundTrip (n : IndexFS) (c m1 m2 : Str) (w : World) : Except PyErr Str :=
  match pyOpen n m1 w with
  | .error e => .error e
  | .ok (f, n1, w1) =>
    match close_file n1 f (fileWrite f c w1) with
    | .error e => .error e
    | .ok (n3, w3) =>
      match pyOpen n3 m2 w3 with
      | .error e => .error e
      | .ok (f2, _, w4) => fileRead f2 w4

/-- C5.  First part: for every node with no live handle on its path and
every well-formed world (every index entry's object present in the
store), writing content `c` through an open handle, closing (which
persists via one `ObjectStore.write` and one index update) and reopening
reads back exactly `c`.  Second part: opening a path that has never been
written (no index entry at it) succeeds and reading yields empty
content. -/
theorem c5_round_trip_and_empty :
    (∀ (n : IndexFS) (c m1 m2 : Str) (w : World),
      alookup n.open_files n.path = none →
      (∀ e ∈ w.indexEntries, (alookup w.objects e.object).isSome = true) →
      roundTrip n c m1 m2 w = .ok c) ∧
    (∀ (n : IndexFS) (m : Str) (w : World),
      alookup n.open_files n.path = none →
      (∀ e ∈ w.indexEntries, e.path ≠ n.path) →
      ∃ f n1 w1, pyOpen n m w = .ok (f, n1, w1) ∧ fileRead f w1 = .ok []) := by
  constructor
  · intro n c m1 m2 w h0 hwf
    have hopen1 : ∃ c0, pyOpen n m1 w = .ok
        ({ hid := w.nextHandle, name := workName n, mode := m1 },
         { n with open_files := aset n.open_files n.path [w.nextHandle] },
         { w with
            files := aset (aremove (aset w.files (tmpName n) c0) (tmpName n)) (workName n) c0
            nextHandle := w.nextHandle + 1 }) := by
      cases hg : get_sha1 n w with
      | none => exact ⟨[], pyOpen_fresh_none n m1 w h0 hg⟩
      | some obj =>
        have hg' := hg
        rw [get_sha1_eq_findRec] at hg'
        obtain ⟨e, he, heo⟩ := Option.map_eq_some'.mp hg'
        have hmem := findRec_mem w.indexEntries n.path e he
        obtain ⟨c0, hc0⟩ := Option.isSome_iff_exists.mp (hwf e hmem)
        have hcat : cat_file w obj = .ok c0 := by
          unfold cat_file
          rw [← heo, hc0]
        exact ⟨c0, pyOpen_fresh_some n m1 w obj c0 h0 hg hcat⟩
    obtain ⟨c0, hopen1⟩ := hopen1
    obtain ⟨n3, w3, f2, n4, w4, hcl, hop2, hrd⟩ :=
      close_reopen_read
        { n with open_files := aset n.open_files n.path [w.nextHandle] }
        { hid := w.nextHandle, name := workName n, mode := m1 }
        c m2
        (fileWrite { hid := w.nextHandle, name := workName n, mode := m1 } c
          { w with
             files := aset (aremove (aset w.files (tmpName n) c0) (tmpName n)) (workName n) c0
             nextHandle := w.nextHandle + 1 })
        (alookup_aset_self _ _ _)
        (by simp [fileWrite, alookup_aset_self])
    simp only [roundTrip, hopen1, hcl, hop2]
    exact hrd
  · intro n m w h0 hnone
    have hg : get_sha1 n w = none := by
      rw [get_sha1_eq_findRec, findRec_eq_none w.indexEntries n.path hnone]
      rfl
    refine ⟨_, _, _, pyOpen_fresh_none n m w h0 hg, ?_⟩
    simp [fileRead, alookup_aset_self]

/-- Witness for `c5_round_trip_and_empty`: round trip of content `hello`
through path `a` in the empty world, and a never-written open yielding
empty content. -/
theorem c5_round_trip_and_empty_witness :
    roundTrip nodeA "hello".data "w".data "r".data emptyWorld = .ok "hello".data ∧
    (∃ f n1 w1, pyOpen nodeA "r".data emptyWorld = .ok (f, n1, w1) ∧
      fileRead f w1 = .ok []) :=
  ⟨c5_round_trip_and_empty.1 nodeA "hello".data "w".data "r".data emptyWorld (by decide)
     (by intro e he; simp [emptyWorld] at he),
   c5_round_trip_and_empty.2 nodeA "r".data emptyWorld (by decide)
     (by intro e he; simp [emptyWorld] at he)⟩

theorem prefix_not_lexLtB : ∀ (a b : Str), a <+: b → lexLtB b a = false := by
  intro a
  induction a with
  | nil =>
    intro b _
    cases b with
    | nil => rfl
    | cons x xs => rfl
  | cons x a' ih =>
    intro b hab
    obtain ⟨t, rfl⟩ := hab
    show lexLtB (x :: (a' ++ t)) (x :: a') = false
    simpa [lexLtB, lt_irrefl] using ih (a' ++ t) ⟨t, rfl⟩

theorem lexLtB_irrefl (s : Str) : lexLtB s s = false :=
  prefix_not_lexLtB s s (List.prefix_refl s)

theorem lexLtB_cons_iff (x y : Char) (as bs : Str) :
    lexLtB (x :: as) (y :: bs) = true ↔ x < y ∨ (x = y ∧ lexLtB as bs = true) := by
  simp only [lexLtB]
  by_cases h1 : x < y
  · simp [h1]
  · by_cases h2 : x = y
    · simp [h1, h2]
    · simp [h1, h2]

theorem lex_prefix_convex :
    ∀ (p a b c : Str), p <+: a → p <+: c →
      (lexLtB a b = true ∨ a = b) → (lexLtB b c = true ∨ b = c) → p <+: b := by
  intro p
  induction p with
  | nil => intro a b c _ _ _ _; exact List.nil_prefix
  | cons x p' ih =>
    intro a b c ha hc hab hbc
    rcases hab with hab | rfl
    · rcases hbc with hbc | rfl
      · obtain ⟨ta, rfl⟩ := ha
        obtain ⟨tc, rfl⟩ := hc
        cases b with
        | nil =>
          rw [show ((x :: p') ++ ta) = x :: (p' ++ ta) from rfl] at hab
          exact absurd hab (by simp [lexLtB])
        | cons y b' =>
          rw [show ((x :: p') ++ ta) = x :: (p' ++ ta) from rfl] at hab
          rw [show ((x :: p') ++ tc) = x :: (p' ++ tc) from rfl] at hbc
          rw [lexLtB_cons_iff] at hab hbc
          rcases hab with hxy | ⟨hxy, htab⟩
          · rcases hbc with hyx | ⟨hyx, _⟩
            · exact absurd hyx (lt_asymm hxy)
            · exact absurd hxy (by rw [hyx]; exact lt_irrefl x)
          · subst hxy
            rcases hbc with hyx | ⟨_, htbc⟩
            · exact absurd hyx (lt_irrefl x)
            · have hb' : p' <+: b' :=
                ih (p' ++ ta) b' (p' ++ tc) ⟨ta, rfl⟩ ⟨tc, rfl⟩ (Or.inl htab) (Or.inl htbc)
              obtain ⟨tb, rfl⟩ := hb'
              exact ⟨tb, rfl⟩
      · exact hc
    · exact ha

theorem firstSeg_no_slash (s : Str) : ∀ c ∈ firstSeg s, ¬ c = '/' := by
  intro c hc
  have := List.mem_takeWhile_imp hc
  simpa using this

theorem hasSep_iff (s : Str) : hasSep s = true ↔ '/' ∈ s := by
  simp [hasSep, List.contains, List.elem_iff]

/-- Everything after the first separator of a remainder. -/
def sepRest (s : Str) : Str := (s.dropWhile (fun c => decide (c ≠ '/'))).tail

theorem firstSeg_cons (ch : Char) (s : Str) :
    firstSeg (ch :: s) = if ch = '/' then [] else ch :: firstSeg s := by
  by_cases h : ch = '/'
  · simp [firstSeg, List.takeWhile_cons, h]
  · simp [firstSeg, List.takeWhile_cons, h]

theorem sepRest_cons (ch : Char) (s : Str) :
    sepRest (ch :: s) = if ch = '/' then s else sepRest s := by
  by_cases h : ch = '/'
  · simp [sepRest, List.dropWhile_cons, h]
  · simp [sepRest, List.dropWhile_cons, h]

theorem seg_decomp : ∀ (s : Str), hasSep s = true → s = firstSeg s ++ '/' :: sepRest s := by
  intro s
  induction s with
  | nil =>
    intro h
    rw [hasSep_iff] at h
    exact absurd h (List.not_mem_nil '/')
  | cons ch s' ih =>
    intro h
    by_cases hch : ch = '/'
    · subst hch
      rw [firstSeg_cons, sepRest_cons]
      simp
    · have hsep' : hasSep s' = true := by
        rw [hasSep_iff] at h ⊢
        rcases List.mem_cons.mp h with h1 | h1
        · exact absurd h1.symm hch
        · exact h1
      rw [firstSeg_cons, sepRest_cons, if_neg hch, if_neg hch]
      show ch :: s' = ch :: (firstSeg s' ++ '/' :: sepRest s')
      rw [← ih hsep']

theorem firstSeg_eq_self_of_no_sep : ∀ (s : Str), hasSep s = false → firstSeg s = s := by
  intro s
  induction s with
  | nil => intro _; rfl
  | cons ch s' ih =>
    intro h
    have hmem : ¬ '/' ∈ ch :: s' := by
      rw [← hasSep_iff]
      simp [h]
    have hch : ¬ ch = '/' := fun he => hmem (by rw [he]; exact List.mem_cons_self _ _)
    have hs' : hasSep s' = false := by
      cases hq : hasSep s' with
      | false => rfl
      | true => exact absurd (List.mem_cons_of_mem ch ((hasSep_iff s').mp hq)) hmem
    rw [firstSeg_cons, if_neg hch, ih hs']

theorem firstSeg_append_slash :
    ∀ (h t : Str), (∀ c ∈ h, ¬ c = '/') → firstSeg (h ++ '/' :: t) = h := by
  intro h
  induction h with
  | nil =>
    intro t _
    rw [List.nil_append, firstSeg_cons]
    simp
  | cons ch h' ih =>
    intro t hns
    have hch : ¬ ch = '/' := hns ch (List.mem_cons_self ch h')
    rw [List.cons_append, firstSeg_cons, if_neg hch,
      ih t (fun c hc => hns c (List.mem_cons_of_mem ch hc))]

theorem head_prefix_of_sep (r : Str) (hsep : hasSep r = true) :
    (firstSeg r ++ ['/']) <+: r := by
  refine ⟨sepRest r, ?_⟩
  rw [List.append_assoc]
  exact (seg_decomp r hsep).symm

theorem sep_head_of_prefix (h r : Str) (hns : ∀ c ∈ h, ¬ c = '/')
    (hq : (h ++ ['/']) <+: r) : firstSeg r = h ∧ hasSep r = true := by
  obtain ⟨t, rfl⟩ := hq
  rw [List.append_assoc]
  constructor
  · exact firstSeg_append_slash h t hns
  · rw [hasSep_iff]
    exact List.mem_append.mpr (Or.inr (List.mem_cons_self '/' t))

/-- The listing is strictly ascending in the store's lexicographic order. -/
def SortedLt (rs : List Str) : Prop := rs.Pairwise (fun a b => lexLtB a b = true)

/-- No remainder, extended with the separator, is a prefix of another: no
path in the listing is both a file and a directory. -/
def PathPrefFree (rs : List Str) : Prop :=
  ∀ a ∈ rs, ∀ b ∈ rs, ¬ (a ++ ['/']) <+: b

/-- Every remainder whose first segment is `h` still has a separator: the
bare name `h` itself no longer occurs (it would have sorted before the
`h/`-prefixed block that made `h` the current `last_subdir`). -/
def NoBareHead (h : Str) (rs : List Str) : Prop :=
  ∀ r ∈ rs, firstSeg r = h → hasSep r = true

/-- Once a remainder outside the `h/` block occurs, no later (greater)
remainder is in the block — the block is an initial run of the list. -/
def HeadFront (h : Str) (rs : List Str) : Prop :=
  ∀ r ∈ rs, ¬ (h ++ ['/']) <+: r → ∀ r' ∈ rs, lexLtB r r' = true → ¬ (h ++ ['/']) <+: r'

/-- Invariant tying the `last_subdir` state of the iteration loop to the
remaining listing. -/
def LastOk : Option Str → List Str → Prop
  | none, _ => True
  | some h, rs => (∀ c ∈ h, ¬ c = '/') ∧ NoBareHead h rs ∧ HeadFront h rs

theorem sortedLt_tail {r : Str} {rest : List Str} (h : SortedLt (r :: rest)) :
    SortedLt rest :=
  h.of_cons

theorem sortedLt_head {r : Str} {rest : List Str} (h : SortedLt (r :: rest)) :
    ∀ r' ∈ rest, lexLtB r r' = true :=
  (List.pairwise_cons.mp h).1

theorem ppf_tail {r : Str} {rest : List Str} (h : PathPrefFree (r :: rest)) :
    PathPrefFree rest :=
  fun a ha b hb => h a (List.mem_cons_of_mem r ha) b (List.mem_cons_of_mem r hb)

theorem lastok_tail {r : Str} {rest : List Str} (last : Option Str)
    (h : LastOk last (r :: rest)) : LastOk last rest := by
  cases last with
  | none => trivial
  | some hh =>
    obtain ⟨h1, h2, h3⟩ := h
    exact ⟨h1, fun r' hr' hfs => h2 r' (List.mem_cons_of_mem r hr') hfs,
      fun r1 hr1 hq r2 hr2 hlt =>
        h3 r1 (List.mem_cons_of_mem r hr1) hq r2 (List.mem_cons_of_mem r hr2) hlt⟩

theorem lastok_cons_yield {r : Str} {rest : List Str}
    (hs : SortedLt (r :: rest))
    (hsep : hasSep r = true) : LastOk (some (firstSeg r)) rest := by
  refine ⟨firstSeg_no_slash r, ?_, ?_⟩
  · intro r' hr' hfs
    cases hq : hasSep r' with
    | true => rfl
    | false =>
      exfalso
      have hr'eq : r' = firstSeg r := by
        rw [← hfs]
        exact (firstSeg_eq_self_of_no_sep r' hq).symm
      have hpre : r' <+: r := by
        rw [hr'eq]
        exact (List.prefix_append _ _).trans (head_prefix_of_sep r hsep)
      have h1 := sortedLt_head hs r' hr'
      have h2 := prefix_not_lexLtB r' r hpre
      rw [h1] at h2
      exact Bool.noConfusion h2
  · intro r1 hr1 hnq1 r2 hr2 hlt hq2
    apply hnq1
    apply lex_prefix_convex (firstSeg r ++ ['/']) r r1 r2
    · exact head_prefix_of_sep r hsep
    · exact hq2
    · exact Or.inl (sortedLt_head hs r1 hr1)
    · exact Or.inl hlt

theorem iterBody_cons_ph (rest : List Str) (last : Option Str) :
    iterBody (placeholderName :: rest) last = iterBody rest last := by
  simp [iterBody]

theorem iterBody_cons_nosep (r : Str) (rest : List Str) (last : Option Str)
    (hne : ¬ r = placeholderName) (hsep : hasSep r = false) :
    iterBody (r :: rest) last = r :: iterBody rest last := by
  simp [iterBody, hne, hsep]

theorem iterBody_cons_skip (r : Str) (rest : List Str) (last : Option Str)
    (hne : ¬ r = placeholderName) (hsep : hasSep r = true)
    (hlast : some (firstSeg r) = last) :
    iterBody (r :: rest) last = iterBody rest last := by
  simp [iterBody, hne, hsep, hlast]

theorem iterBody_cons_yield (r : Str) (rest : List Str) (last : Option Str)
    (hne : ¬ r = placeholderName) (hsep : hasSep r = true)
    (hlast : ¬ (some (firstSeg r) = last)) :
    iterBody (r :: rest) last = firstSeg r :: iterBody rest (some (firstSeg r)) := by
  simp [iterBody, hne, hsep, hlast]

theorem iterBody_mem :
    ∀ (rs : List Str) (last : Option Str), SortedLt rs → PathPrefFree rs → LastOk last rs →
      ∀ s : Str, (s ∈ iterBody rs last ↔
        (∃ r, r ∈ rs ∧ r ≠ placeholderName ∧ firstSeg r = s) ∧
        (∀ h, last = some h → s ≠ h)) := by
  intro rs
  induction rs with
  | nil =>
    intro last _ _ _ s
    simp [iterBody]
  | cons r rest ih =>
    intro last hs hp hl s
    by_cases hph : r = placeholderName
    · subst hph
      rw [iterBody_cons_ph]
      rw [ih last (sortedLt_tail hs) (ppf_tail hp) (lastok_tail last hl) s]
      constructor
      · rintro ⟨⟨r', hr', hne, hfs⟩, hcond⟩
        exact ⟨⟨r', List.mem_cons_of_mem _ hr', hne, hfs⟩, hcond⟩
      · rintro ⟨⟨r', hr', hne, hfs⟩, hcond⟩
        rcases List.mem_cons.mp hr' with heq | hr'
        · exact absurd heq hne
        · exact ⟨⟨r', hr', hne, hfs⟩, hcond⟩
    · by_cases hsept : hasSep r = true
      · by_cases hlast : some (firstSeg r) = last
        · cases last with
          | none => exact absurd hlast (by simp)
          | some h =>
            have hfr : firstSeg r = h := by injection hlast
            rw [iterBody_cons_skip r rest (some h) hph hsept hlast]
            rw [ih (some h) (sortedLt_tail hs) (ppf_tail hp) (lastok_tail _ hl) s]
            constructor
            · rintro ⟨⟨r', hr', hne, hfs⟩, hcond⟩
              exact ⟨⟨r', List.mem_cons_of_mem _ hr', hne, hfs⟩, hcond⟩
            · rintro ⟨⟨r', hr', hne, hfs⟩, hcond⟩
              rcases List.mem_cons.mp hr' with heq | hr'
              · subst heq
                exact absurd (hfs.symm.trans hfr) (hcond h rfl)
              · exact ⟨⟨r', hr', hne, hfs⟩, hcond⟩
        · rw [iterBody_cons_yield r rest last hph hsept hlast]
          have hlok : LastOk (some (firstSeg r)) rest := lastok_cons_yield hs hsept
          rw [List.mem_cons]
          rw [ih (some (firstSeg r)) (sortedLt_tail hs) (ppf_tail hp) hlok s]
          constructor
          · rintro (rfl | ⟨⟨r', hr', hne, hfs⟩, hcond2⟩)
            · refine ⟨⟨r, List.mem_cons_self r rest, hph, rfl⟩, ?_⟩
              intro h hleq hseq
              apply hlast
              rw [hleq, hseq]
            · refine ⟨⟨r', List.mem_cons_of_mem _ hr', hne, hfs⟩, ?_⟩
              intro h hleq hseq
              rw [hleq] at hl
              obtain ⟨hns, hnb, hhf⟩ := hl
              have hsep' : hasSep r' = true :=
                hnb r' (List.mem_cons_of_mem r hr') (hfs.trans hseq)
              have hq' : (h ++ ['/']) <+: r' := by
                have hpre := head_prefix_of_sep r' hsep'
                rw [hfs.trans hseq] at hpre
                exact hpre
              have hnqr : ¬ (h ++ ['/']) <+: r := by
                intro hqr
                obtain ⟨hfsr, _⟩ := sep_head_of_prefix h r hns hqr
                exact hlast (by rw [hfsr, hleq])
              exact hhf r (List.mem_cons_self r rest) hnqr r'
                (List.mem_cons_of_mem r hr') (sortedLt_head hs r' hr') hq'
          · rintro ⟨⟨r', hr', hne, hfs⟩, hcond⟩
            rcases List.mem_cons.mp hr' with heq | hr'
            · subst heq
              exact Or.inl hfs.symm
            · by_cases hsr : s = firstSeg r
              · exact Or.inl hsr
              · refine Or.inr ⟨⟨r', hr', hne, hfs⟩, ?_⟩
                intro h hheq hseq
                injection hheq with hheq
                exact hsr (hseq.trans hheq.symm)
      · have hsepf : hasSep r = false := by
          cases hq : hasSep r with
          | true => exact absurd hq hsept
          | false => rfl
        rw [iterBody_cons_nosep r rest last hph hsepf]
        rw [List.mem_cons]
        rw [ih last (sortedLt_tail hs) (ppf_tail hp) (lastok_tail last hl) s]
        have hfsr : firstSeg r = r := firstSeg_eq_self_of_no_sep r hsepf
        constructor
        · rintro (rfl | ⟨⟨r', hr', hne, hfs⟩, hcond⟩)
          · refine ⟨⟨s, List.mem_cons_self s rest, hph, hfsr⟩, ?_⟩
            intro h hleq hseq
            rw [hleq] at hl
            obtain ⟨hns, hnb, _⟩ := hl
            have hsept' := hnb s (List.mem_cons_self s rest) (by rw [hfsr, hseq])
            rw [hsepf] at hsept'
            exact Bool.noConfusion hsept'
          · exact ⟨⟨r', List.mem_cons_of_mem _ hr', hne, hfs⟩, hcond⟩
        · rintro ⟨⟨r', hr', hne, hfs⟩, hcond⟩
          rcases List.mem_cons.mp hr' with heq | hr'
          · subst heq
            exact Or.inl (hfs.symm.trans hfsr)
          · exact Or.inr ⟨⟨r', hr', hne, hfs⟩, hcond⟩

theorem iterBody_nodup :
    ∀ (rs : List Str) (last : Option Str), SortedLt rs → PathPrefFree rs → LastOk last rs →
      (iterBody rs last).Nodup := by
  intro rs
  induction rs with
  | nil => intro last _ _ _; simp [iterBody]
  | cons r rest ih =>
    intro last hs hp hl
    by_cases hph : r = placeholderName
    · subst hph
      rw [iterBody_cons_ph]
      exact ih last (sortedLt_tail hs) (ppf_tail hp) (lastok_tail last hl)
    · by_cases hsept : hasSep r = true
      · by_cases hlast : some (firstSeg r) = last
        · rw [iterBody_cons_skip r rest last hph hsept hlast]
          exact ih last (sortedLt_tail hs) (ppf_tail hp) (lastok_tail last hl)
        · rw [iterBody_cons_yield r rest last hph hsept hlast]
          have hlok : LastOk (some (firstSeg r)) rest := lastok_cons_yield hs hsept
          refine List.nodup_cons.mpr
            ⟨?_, ih (some (firstSeg r)) (sortedLt_tail hs) (ppf_tail hp) hlok⟩
          intro hmem
          rw [iterBody_mem rest (some (firstSeg r)) (sortedLt_tail hs) (ppf_tail hp) hlok
            (firstSeg r)] at hmem
          exact hmem.2 (firstSeg r) rfl rfl
      · have hsepf : hasSep r = false := by
          cases hq : hasSep r with
          | true => exact absurd hq hsept
          | false => rfl
        rw [iterBody_cons_nosep r rest last hph hsepf]
        refine List.nodup_cons.mpr
          ⟨?_, ih last (sortedLt_tail hs) (ppf_tail hp) (lastok_tail last hl)⟩
        intro hmem
        rw [iterBody_mem rest last (sortedLt_tail hs) (ppf_tail hp) (lastok_tail last hl) r]
          at hmem
        obtain ⟨⟨r', hr', hne, hfs⟩, _⟩ := hmem
        cases hq : hasSep r' with
        | false =>
          have heq : r' = r := by
            rw [← firstSeg_eq_self_of_no_sep r' hq, hfs]
          have h1 := sortedLt_head hs r' hr'
          rw [heq, lexLtB_irrefl] at h1
          exact Bool.noConfusion h1
        | true =>
          have hqq := head_prefix_of_sep r' hq
          rw [hfs] at hqq
          exact hp r (List.mem_cons_self r rest) r' (List.mem_cons_of_mem r hr') hqq

/-- Entries `a`, `b`, `dir/c` (paths of a root listing) used by the
iteration theorems. -/
def rsABDirC : List Str := ["a".data, "b".data, "dir/c".data]

/-- C6, counterexample.  The sorted listing with remainders `a` and `a/c`
(a file that also has an entry beneath it) makes the iteration yield the
child name `a` twice — not one child per distinct first segment. -/
theorem c6_file_dir_duplicate_counterexample :
    SortedLt ["a".data, "a/c".data] ∧
    iterBody ["a".data, "a/c".data] none = ["a".data, "a".data] ∧
    ¬ (iterBody ["a".data, "a/c".data] none).Nodup := by
  refine ⟨?_, by decide, by decide⟩
  unfold SortedLt
  decide

/-- C6, amended.  For every strictly sorted listing of remainders in which
no remainder extended with `/` is a prefix of another (no path is both a
file and a directory), iterating yields each distinct first path segment
of the non-placeholder remainders exactly once: the yielded names are
duplicate-free, and a name is yielded iff it is the first segment of some
remainder other than the exact placeholder name. -/
theorem c6_iteration_amended (rs : List Str) (hs : SortedLt rs) (hp : PathPrefFree rs) :
    (iterBody rs none).Nodup ∧
    (∀ s, s ∈ iterBody rs none ↔ ∃ r, r ∈ rs ∧ r ≠ placeholderName ∧ firstSeg r = s) := by
  constructor
  · exact iterBody_nodup rs none hs hp trivial
  · intro s
    rw [iterBody_mem rs none hs hp trivial s]
    simp

/-- Witness for `c6_iteration_amended` at the spec's example listing `a`,
`b`, `dir/c`: the iteration yields exactly `a`, `b`, `dir`. -/
theorem c6_iteration_amended_witness :
    SortedLt rsABDirC ∧ PathPrefFree rsABDirC ∧
    (iterBody rsABDirC none).Nodup ∧
    iterBody rsABDirC none = ["a".data, "b".data, "dir".data] ∧
    ("dir/c".data ∈ rsABDirC ∧ firstSeg "dir/c".data = "dir".data) :=
  ⟨by unfold SortedLt; decide, by unfold PathPrefFree; decide,
   (c6_iteration_amended rsABDirC (by unfold SortedLt; decide)
     (by unfold PathPrefFree; decide)).1,
   by decide, by decide⟩
